import Mathlib

/- Shallow embedding of the flowjax bijection-composition core:
   `flowjax/bijections/utils.py` (Chain, Permute, Flip) and
   `flowjax/bijections/block_autoregressive_network.py`
   (BlockAutoregressiveNetwork, logmatmulexp, _3d_log_det).
   Jax arrays are modelled as lists or as functions out of `Fin`;
   floating-point arithmetic is modelled by exact real arithmetic, and the
   `-inf` entries of the block-diagonal construction by `⊥ : EReal`. -/

namespace Flowjax

/-- Error taxonomy of the specification.  The source raises
`NotImplementedError` for the unsupported inverses of the block
autoregressive network (spec name: `UnsupportedOperationError`) and fails an
`assert` when a `Permute` is constructed from a non-permutation (spec name:
`InvalidPermutationError`). -/
inductive Err where
  | unsupportedOperation : Err
  | invalidPermutation : Err
  deriving DecidableEq, Repr

/-! ### Permute and Flip (`flowjax/bijections/utils.py`) -/

/-- Ascending sort of a list of indices, modelling `permutation.sort()` in
`Permute.__init__`.  Insertion sort is used as the model of jax's sort; on the
index arrays concerned only the sorted result is observed, which is
algorithm-independent. -/
def jnp_sort (p : List ℕ) : List ℕ :=
  p.insertionSort (fun a b => a ≤ b)

/-- Model of `jnp.argsort(p)`: the indices `0, …, p.length - 1` reordered so
that the values of `p` at those indices are ascending. -/
def argsort (p : List ℕ) : List ℕ :=
  (List.range p.length).insertionSort (fun i j => p.getD i 0 ≤ p.getD j 0)

/-- The validation performed by `Permute.__init__`:
`assert (permutation.sort() == jnp.arange(len(permutation))).all()`. -/
def permute_valid (p : List ℕ) : Bool :=
  decide (jnp_sort p = List.range p.length)

/-- State stored by a constructed `Permute` bijection. -/
structure Permute where
  permutation : List ℕ
  inverse_permutation : List ℕ
  deriving DecidableEq, Repr

/-- Constructor `Permute.__init__`: validate, then store the permutation and
the inverse permutation derived once as `argsort`. -/
def mkPermute (p : List ℕ) : Except Err Permute :=
  if permute_valid p then Except.ok ⟨p, argsort p⟩
  else Except.error Err.invalidPermutation

/-- Fancy indexing `x[p]`: entry `i` of the result is `x[p[i]]`.  The default
element is never reached on the valid inputs the theorems quantify over. -/
def index_list {α : Type} [Inhabited α] (x : List α) (p : List ℕ) : List α :=
  p.map (fun i => x.getD i default)

/-- Method `Permute.transform` (the condition argument is ignored). -/
def permute_transform {α : Type} [Inhabited α] (perm : Permute) (x : List α)
    (condition : List α) : List α :=
  index_list x perm.permutation

/-- Method `Permute.transform_and_log_abs_det_jacobian`. -/
noncomputable def permute_transform_and_log_abs_det_jacobian {α : Type}
    [Inhabited α] (perm : Permute) (x : List α) (condition : List α) :
    List α × ℝ :=
  (index_list x perm.permutation, 0)

/-- Method `Permute.inverse`: index by the stored inverse permutation. -/
def permute_inverse {α : Type} [Inhabited α] (perm : Permute) (y : List α)
    (condition : List α) : List α :=
  index_list y perm.inverse_permutation

/-- Method `Flip.transform`: `jnp.flip(x)` (the condition is ignored). -/
def flip_transform {α : Type} (x : List α) (condition : List α) : List α :=
  x.reverse

/-- Method `Flip.transform_and_log_abs_det_jacobian`. -/
noncomputable def flip_transform_and_log_abs_det_jacobian {α : Type}
    (x : List α) (condition : List α) : List α × ℝ :=
  (x.reverse, 0)

/-- Method `Flip.inverse`. -/
def flip_inverse {α : Type} (y : List α) (condition : List α) : List α :=
  y.reverse

/-! ### Chain (`flowjax/bijections/utils.py`) -/

/-- A child bijection as consumed by `Chain`: the capability set
`{transform, transform_and_log_abs_det_jacobian, inverse}` of the bijection
contract, over point type `V` and condition type `C`. -/
structure Bij (V C : Type) where
  transform : V → C → V
  transform_and_log_abs_det_jacobian : V → C → V × ℝ
  inverse : V → C → V

/-- Method `Chain.transform`: run the children in sequence order. -/
def chain_transform {V C : Type} (bs : List (Bij V C)) (x : V) (c : C) : V :=
  bs.foldl (fun z b => b.transform z c) x

/-- Method `Chain.transform_and_log_abs_det_jacobian`: thread the point
through the children while accumulating the scalar log-determinants,
starting from `0`. -/
noncomputable def chain_transform_and_log_abs_det_jacobian {V C : Type}
    (bs : List (Bij V C)) (x : V) (c : C) : V × ℝ :=
  bs.foldl
    (fun acc b =>
      let zi := b.transform_and_log_abs_det_jacobian acc.1 c
      (zi.1, acc.2 + zi.2))
    (x, 0)

/-- Method `Chain.inverse`: run the children's inverses in reverse order. -/
def chain_inverse {V C : Type} (bs : List (Bij V C)) (y : V) (c : C) : V :=
  bs.reverse.foldl (fun z b => b.inverse z c) y

/-- Specification-side description of the chain log-determinant: the sum of
the children's log-determinants, each evaluated at the intermediate point
produced by the preceding children. -/
noncomputable def chain_logdets {V C : Type} (bs : List (Bij V C)) (x : V)
    (c : C) : ℝ :=
  match bs with
  | [] => 0
  | b :: rest =>
      (b.transform_and_log_abs_det_jacobian x c).2
        + chain_logdets rest (b.transform x c) c

/-! ### Layer stack built by `BlockAutoregressiveNetwork.__init__` -/

/-- One constructor call recorded while building the layer stack: either
`BlockAutoregressiveLinear(key, dim, block_shape, cond_dim)` (the masked
linear layer itself lives outside this package; only the constructor
arguments are recorded, the PRNG key being irrelevant to the structure) or
an activation layer. -/
inductive LayerSpec where
  | linear (dim : ℕ) (block_shape : ℕ × ℕ) (cond_dim : ℕ) : LayerSpec
  | activation : LayerSpec
  deriving DecidableEq, Repr

/-- The layer stack built by `BlockAutoregressiveNetwork.__init__`: a single
`(1, 1)`-block linear layer when `depth = 0`, otherwise a fold over the
zipped block shapes and conditioning dimensions appending
`[linear, activation]` each round, with the trailing activation removed. -/
def mkLayers (dim cond_dim depth block_dim : ℕ) : List LayerSpec :=
  if depth = 0 then
    [LayerSpec.linear dim (1, 1) cond_dim]
  else
    let block_shapes : List (ℕ × ℕ) :=
      (block_dim, 1) ::
        (List.replicate (depth - 1) (block_dim, block_dim) ++ [(1, block_dim)])
    let cond_dims : List ℕ := cond_dim :: List.replicate depth 0
    ((block_shapes.zip cond_dims).foldl
        (fun acc bc =>
          acc ++ [LayerSpec.linear dim bc.1 bc.2, LayerSpec.activation])
        []).dropLast

/-- Specification-side description of the stack for `depth > 0`: a
`(block_dim, 1)` linear layer receiving the conditioning inputs, then
`depth - 1` repetitions of a `(block_dim, block_dim)` linear layer, each
linear layer followed by an activation, and a final `(1, block_dim)` linear
layer with no trailing activation; every layer after the first receives
zero conditioning dimensions. -/
def specLayers (dim cond_dim depth block_dim : ℕ) : List LayerSpec :=
  LayerSpec.linear dim (block_dim, 1) cond_dim :: LayerSpec.activation ::
    ((List.replicate (depth - 1)
        [LayerSpec.linear dim (block_dim, block_dim) 0, LayerSpec.activation]).flatten
      ++ [LayerSpec.linear dim (1, block_dim) 0])

/-! ### Forward passes of `BlockAutoregressiveNetwork` -/

/-- A runtime layer of the network as consumed by the forward passes: maps a
point and an optional condition to the transformed point and the layer's
block Jacobian.  The network's layer list is nonempty by construction, so
the methods below take the first layer and the remaining layers
separately, mirroring the source's `layers[0]` / `layers[1:]` split. -/
def Layer (V C J : Type) : Type := V → Option C → V × J

/-- Method `BlockAutoregressiveNetwork.transform`: run the first layer with
the condition, then the remaining layers without it, keeping only points. -/
def bnaf_transform {V C J : Type} (l0 : Layer V C J) (ls : List (Layer V C J))
    (x : V) (c : C) : V :=
  ls.foldl (fun v l => (l v none).1) (l0 x (some c)).1

/-- The loop over `layers[1:]` in
`BlockAutoregressiveNetwork.transform_and_log_abs_det_jacobian`, returning
the final point and the per-layer Jacobians in order of application. -/
def run_rest {V C J : Type} (ls : List (Layer V C J)) (x : V) : V × List J :=
  match ls with
  | [] => (x, [])
  | l :: lt =>
      let yj := l x none
      let r := run_rest lt yj.1
      (r.1, yj.2 :: r.2)

/-- The second loop of the source method:
`logdet = lds[-1]; for ld in reversed(lds[:-1]): logdet = comp(logdet, ld)`,
on the nonempty Jacobian list `j0 :: js`. -/
def fold_logdet {J : Type} (comp : J → J → J) (j0 : J) (js : List J) : J :=
  ((j0 :: js).dropLast).reverse.foldl comp
    ((j0 :: js).getLast (List.cons_ne_nil j0 js))

/-- Method `BlockAutoregressiveNetwork.transform_and_log_abs_det_jacobian`,
with the Jacobian composition `comp` (instantiated with `logmatmulexp`) and
the final entry sum `sumJ` (`logdet.sum()`) abstracted over. -/
def bnaf_transform_and_log_abs_det_jacobian {V C J : Type}
    (comp : J → J → J) (sumJ : J → ℝ) (l0 : Layer V C J)
    (ls : List (Layer V C J)) (x : V) (c : C) : V × ℝ :=
  let yj := l0 x (some c)
  let r := run_rest ls yj.1
  (r.1, sumJ (fold_logdet comp yj.2 r.2))

/-- Method `BlockAutoregressiveNetwork.inverse`: raises unconditionally
(source: `NotImplementedError`; spec: `UnsupportedOperationError`).  The
model is a pure function of the instance, so no state can change. -/
def bnaf_inverse {V C J : Type} (l0 : Layer V C J) (ls : List (Layer V C J))
    (y : V) (c : C) : Except Err V :=
  Except.error Err.unsupportedOperation

/-- Method `BlockAutoregressiveNetwork.inverse_and_log_abs_det_jacobian`:
raises unconditionally, exactly as `inverse` does. -/
def bnaf_inverse_and_log_abs_det_jacobian {V C J : Type} (l0 : Layer V C J)
    (ls : List (Layer V C J)) (y : V) (c : C) : Except Err (V × ℝ) :=
  Except.error Err.unsupportedOperation

/-- Specification-side description: the per-layer block Jacobians produced
along the forward pass of `layers[1:]` from point `x`. -/
def layer_jacs {V C J : Type} (ls : List (Layer V C J)) (x : V) : List J :=
  match ls with
  | [] => []
  | l :: lt => (l x none).2 :: layer_jacs lt (l x none).1

/-- Specification-side description of the right-to-left fold: the last
layer's block Jacobian first, each earlier layer composed into the running
result. -/
def rtl_fold {J : Type} (comp : J → J → J) (j : J) (js : List J) : J :=
  match js with
  | [] => j
  | j2 :: rest => comp (rtl_fold comp j2 rest) j

/-! ### logmatmulexp (`block_autoregressive_network.py`) -/

/-- Model of `jax.lax.stop_gradient`: the identity on values (it only blocks
differentiation, which this value-level model does not represent). -/
def stop_gradient {α : Type} (x : α) : α := x

/-- Model of `jnp.amax` over one axis at fixed remaining indices: the maximum
of a nonempty family of reals. -/
noncomputable def amax {m : ℕ} (f : Fin (m + 1) → ℝ) : ℝ :=
  Finset.univ.sup' Finset.univ_nonempty f

/-- The function `logmatmulexp(x, y)` of the source, on batched arrays of
shapes `(B, n, m + 1)` and `(B, m + 1, p)`: subtract the row-wise max of `x`
and the column-wise max of `y` (through `stop_gradient`), exponentiate,
matrix-multiply, take the log, then add back both shifts. -/
noncomputable def logmatmulexp (B n m p : ℕ)
    (x : Fin B → Fin n → Fin (m + 1) → ℝ)
    (y : Fin B → Fin (m + 1) → Fin p → ℝ) :
    Fin B → Fin n → Fin p → ℝ :=
  fun b i j =>
    let x_shift := stop_gradient (amax (x b i))
    let y_shift := stop_gradient (amax (fun k => y b k j))
    Real.log (∑ k, Real.exp (x b i k - x_shift) * Real.exp (y b k j - y_shift))
      + x_shift + y_shift

/-- The naive reference of the specification: `log(exp(x) @ exp(y))`
computed directly, per block. -/
noncomputable def naive_logmatmulexp (B n m p : ℕ)
    (x : Fin B → Fin n → Fin (m + 1) → ℝ)
    (y : Fin B → Fin (m + 1) → Fin p → ℝ) :
    Fin B → Fin n → Fin p → ℝ :=
  fun b i j => Real.log (∑ k, Real.exp (x b i k) * Real.exp (y b k j))

/-- The sum `logdet.sum()` over all entries of a block Jacobian array. -/
noncomputable def entries_sum (B d : ℕ) (j : Fin B → Fin d → Fin d → ℝ) : ℝ :=
  ∑ b, ∑ i, ∑ k, j b i k

/-! ### The block-diagonal expansion `_3d_log_det` -/

/-- Model of `jnp.full((n, d, d), -jnp.inf)`: a constant rank-3 array.  The
entries live in `EReal` so that `-inf` is representable exactly. -/
def jnp_full (n d : ℕ) (c : EReal) : Fin n → Fin d → Fin d → EReal :=
  fun _ _ _ => c

/-- Model of `a.at[:, jnp.arange(d), jnp.arange(d)].set(v)`: overwrite the
diagonal of every block with the corresponding row of `v`. -/
def set_block_diag {n d : ℕ} (a : Fin n → Fin d → Fin d → EReal)
    (v : Fin n → Fin d → EReal) : Fin n → Fin d → Fin d → EReal :=
  fun b i j => if i = j then v b i else a b i j

/-- Model of `vals.reshape(n, d)` for a flat vector of `n * d` entries:
entry `(b, i)` is `vals[b * d + i]` (row-major order). -/
def reshape_flat (n d : ℕ) (vals : Fin (n * d) → ℝ) : Fin n → Fin d → ℝ :=
  fun b i =>
    vals ⟨b.1 * d + i.1, by
      have h1 : b.1 * d + i.1 < (b.1 + 1) * d := by
        rw [Nat.succ_mul]
        exact Nat.add_lt_add_left i.isLt _
      exact lt_of_lt_of_le h1 (Nat.mul_le_mul_right d b.isLt)⟩

/-- The function `_3d_log_det(vals, n_blocks)` of the source: a rank-3 array
full of `-inf`, with the reshaped values written onto the block diagonals. -/
def log_det_3d (n d : ℕ) (vals : Fin (n * d) → ℝ) :
    Fin n → Fin d → Fin d → EReal :=
  set_block_diag (jnp_full n d ⊥) (fun b i => ((reshape_flat n d vals b i : ℝ) : EReal))

/-! ### Concrete bijections used to witness the Chain theorem -/

/-- A concrete child bijection on natural numbers: add one, with
log-determinant zero. -/
noncomputable def bij_add_one : Bij ℕ Unit :=
  ⟨fun x _ => x + 1, fun x _ => (x + 1, 0), fun y _ => y - 1⟩

/-- A concrete child bijection on natural numbers: add two, with
log-determinant zero. -/
noncomputable def bij_add_two : Bij ℕ Unit :=
  ⟨fun x _ => x + 2, fun x _ => (x + 2, 0), fun y _ => y - 2⟩

/-! ### Theorems: the log-domain matrix multiplication -/

/-- Each entry of `exp(x) @ exp(y)` is a nonempty sum of positive terms. -/
theorem sum_exp_mul_exp_pos {m : ℕ} (f g : Fin (m + 1) → ℝ) :
    0 < ∑ k, Real.exp (f k) * Real.exp (g k) :=
  Finset.sum_pos (fun k _ => mul_pos (Real.exp_pos _) (Real.exp_pos _))
    Finset.univ_nonempty

/-- Shift cancellation: subtracting any constants inside the exponentials and
adding them back after the logarithm leaves the value unchanged. -/
theorem log_sum_exp_shift {m : ℕ} (f g : Fin (m + 1) → ℝ) (s t : ℝ) :
    Real.log (∑ k, Real.exp (f k - s) * Real.exp (g k - t)) + s + t
      = Real.log (∑ k, Real.exp (f k) * Real.exp (g k)) := by
  have hterm : ∀ k : Fin (m + 1), Real.exp (f k - s) * Real.exp (g k - t)
      = Real.exp (f k) * Real.exp (g k) * Real.exp (-(s + t)) := by
    intro k
    rw [← Real.exp_add, ← Real.exp_add, ← Real.exp_add]
    congr 1
    ring
  rw [Finset.sum_congr rfl (fun k _ => hterm k), ← Finset.sum_mul,
    Real.log_mul (ne_of_gt (sum_exp_mul_exp_pos f g)) (ne_of_gt (Real.exp_pos _)),
    Real.log_exp]
  ring

/-- Helper: `logmatmulexp` agrees with the directly computed
`log(exp(x) @ exp(y))` on every entry. -/
theorem logmatmulexp_eq_naive (B n m p : ℕ)
    (x : Fin B → Fin n → Fin (m + 1) → ℝ)
    (y : Fin B → Fin (m + 1) → Fin p → ℝ) :
    logmatmulexp B n m p x y = naive_logmatmulexp B n m p x y := by
  funext b i j
  simpa [logmatmulexp, naive_logmatmulexp, stop_gradient] using
    log_sum_exp_shift (x b i) (fun k => y b k j) (amax (x b i))
      (amax (fun k => y b k j))

/-- C1: for every pair of block-Jacobian arrays `x` and `y` of compatible
shapes, `logmatmulexp` (the spec's `compose_log`) — computed by subtracting
the stop-gradient row-wise max of `x` and column-wise max of `y`,
exponentiating, matrix-multiplying, taking the log, and adding back both
shifts — equals the naive reference `log(exp(x) @ exp(y))` applied per
block. -/
theorem C1_logmatmulexp_refines_naive (B n m p : ℕ)
    (x : Fin B → Fin n → Fin (m + 1) → ℝ)
    (y : Fin B → Fin (m + 1) → Fin p → ℝ) :
    logmatmulexp B n m p x y = naive_logmatmulexp B n m p x y :=
  logmatmulexp_eq_naive B n m p x y

/-- Helper: the naive log-domain matrix multiplication is associative. -/
theorem naive_logmatmulexp_assoc (B n m p q : ℕ)
    (x : Fin B → Fin n → Fin (m + 1) → ℝ)
    (y : Fin B → Fin (m + 1) → Fin (p + 1) → ℝ)
    (z : Fin B → Fin (p + 1) → Fin q → ℝ) :
    naive_logmatmulexp B n p q (naive_logmatmulexp B n m (p + 1) x y) z
      = naive_logmatmulexp B n m q x (naive_logmatmulexp B (m + 1) p q y z) := by
  funext b i l
  simp only [naive_logmatmulexp]
  congr 1
  calc
    (∑ k, Real.exp (Real.log (∑ j, Real.exp (x b i j) * Real.exp (y b j k)))
        * Real.exp (z b k l))
      = ∑ k, (∑ j, Real.exp (x b i j) * Real.exp (y b j k))
          * Real.exp (z b k l) := by
        refine Finset.sum_congr rfl fun k _ => ?_
        rw [Real.exp_log (sum_exp_mul_exp_pos _ _)]
    _ = ∑ k, ∑ j, Real.exp (x b i j) * Real.exp (y b j k)
          * Real.exp (z b k l) := by
        refine Finset.sum_congr rfl fun k _ => ?_
        rw [Finset.sum_mul]
    _ = ∑ j, ∑ k, Real.exp (x b i j) * Real.exp (y b j k)
          * Real.exp (z b k l) := Finset.sum_comm
    _ = ∑ j, Real.exp (x b i j)
          * ∑ k, Real.exp (y b j k) * Real.exp (z b k l) := by
        refine Finset.sum_congr rfl fun j _ => ?_
        rw [Finset.mul_sum]
        refine Finset.sum_congr rfl fun k _ => ?_
        ring
    _ = ∑ j, Real.exp (x b i j)
          * Real.exp (Real.log (∑ k, Real.exp (y b j k) * Real.exp (z b k l))) := by
        refine Finset.sum_congr rfl fun j _ => ?_
        rw [Real.exp_log (sum_exp_mul_exp_pos _ _)]

/-- C7: `compose_log` (`logmatmulexp`) is associative — for every three
block-Jacobian arrays of matching block shape, composing left-to-right
equals composing right-to-left, exactly, over exact real arithmetic. -/
theorem C7_logmatmulexp_assoc (B n m p q : ℕ)
    (x : Fin B → Fin n → Fin (m + 1) → ℝ)
    (y : Fin B → Fin (m + 1) → Fin (p + 1) → ℝ)
    (z : Fin B → Fin (p + 1) → Fin q → ℝ) :
    logmatmulexp B n p q (logmatmulexp B n m (p + 1) x y) z
      = logmatmulexp B n m q x (logmatmulexp B (m + 1) p q y z) := by
  rw [logmatmulexp_eq_naive, logmatmulexp_eq_naive, logmatmulexp_eq_naive,
    logmatmulexp_eq_naive]
  exact naive_logmatmulexp_assoc B n m p q x y z

/-! ### Theorems: the block-diagonal expansion -/

/-- C9: for every flat vector of `n * d` per-unit log-derivative values,
`_3d_log_det` returns a rank-3 array of shape `(n, d, d)` whose block
diagonals carry the input values in order (entry `(b, i, i)` is value
`b * d + i`) and whose every other entry is `-infinity`. -/
theorem C9_log_det_3d_block_diagonal (n d : ℕ) (vals : Fin (n * d) → ℝ)
    (b : Fin n) (i j : Fin d) :
    (i = j →
      log_det_3d n d vals b i j = ((reshape_flat n d vals b i : ℝ) : EReal))
    ∧ (i ≠ j → log_det_3d n d vals b i j = ⊥) := by
  constructor
  · intro h
    simp [log_det_3d, set_block_diag, h]
  · intro h
    simp [log_det_3d, set_block_diag, h, jnp_full]

/-- Witness for C9 at `n = d = 2`, `vals = (0, 1, 2, 3)`: the diagonal entry
`(1, 1, 1)` carries `vals[3] = 3` and the off-diagonal entry `(1, 0, 1)` is
`-infinity`. -/
theorem C9_witness :
    log_det_3d 2 2 (fun k => (k.1 : ℝ)) 1 1 1 = ((3 : ℝ) : EReal)
    ∧ log_det_3d 2 2 (fun k => (k.1 : ℝ)) 1 0 1 = ⊥ := by
  constructor
  · rw [(C9_log_det_3d_block_diagonal 2 2 (fun k => (k.1 : ℝ)) 1 1 1).1 rfl]
    norm_num [reshape_flat]
  · exact (C9_log_det_3d_block_diagonal 2 2 (fun k => (k.1 : ℝ)) 1 0 1).2
      (by decide)

/-! ### Theorems: the unsupported inverse of the network -/

/-- C4: for every network instance and every input, `inverse` and
`inverse_and_log_abs_det_jacobian` fail with the unsupported-operation
error; the model is a pure function of the immutable instance, so no state
can change. -/
theorem C4_bnaf_inverse_unsupported {V C J : Type} (l0 : Layer V C J)
    (ls : List (Layer V C J)) (y : V) (c : C) :
    bnaf_inverse l0 ls y c = Except.error Err.unsupportedOperation
    ∧ bnaf_inverse_and_log_abs_det_jacobian l0 ls y c
        = Except.error Err.unsupportedOperation :=
  ⟨rfl, rfl⟩

/-! ### Theorems: condition independence of Permute and Flip -/

/-- C10: the condition argument never influences the output of `Permute` or
`Flip`: each of `transform`, `inverse` and
`transform_and_log_abs_det_jacobian` returns the same result under any two
condition vectors. -/
theorem C10_condition_independence {α : Type} [Inhabited α] (perm : Permute)
    (x c1 c2 : List α) :
    permute_transform perm x c1 = permute_transform perm x c2
    ∧ permute_inverse perm x c1 = permute_inverse perm x c2
    ∧ permute_transform_and_log_abs_det_jacobian perm x c1
        = permute_transform_and_log_abs_det_jacobian perm x c2
    ∧ flip_transform x c1 = flip_transform x c2
    ∧ flip_inverse x c1 = flip_inverse x c2
    ∧ flip_transform_and_log_abs_det_jacobian x c1
        = flip_transform_and_log_abs_det_jacobian x c2 :=
  ⟨rfl, rfl, rfl, rfl, rfl, rfl⟩

/-! ### Theorems: Chain -/

/-- Helper: the accumulating fold of `Chain.transform_and_log_abs_det_jacobian`
computes the transform point and adds the per-stage log-determinants, provided
every child satisfies the contract that both of its forward paths produce the
same point. -/
theorem chain_foldl_acc {V C : Type} (bs : List (Bij V C)) (c : C)
    (H : ∀ b ∈ bs, ∀ z : V,
      (b.transform_and_log_abs_det_jacobian z c).1 = b.transform z c) :
    ∀ (x : V) (a : ℝ),
      bs.foldl
        (fun acc b =>
          let zi := b.transform_and_log_abs_det_jacobian acc.1 c
          (zi.1, acc.2 + zi.2))
        (x, a)
      = (chain_transform bs x c, a + chain_logdets bs x c) := by
  induction bs with
  | nil => intro x a; simp [chain_transform, chain_logdets]
  | cons b rest ih =>
      intro x a
      have hb := H b (List.mem_cons_self b rest) x
      simp only [List.foldl_cons]
      rw [ih (fun b' hb' => H b' (List.mem_cons_of_mem _ hb')), hb]
      simp only [chain_transform, chain_logdets, List.foldl_cons]
      rw [add_assoc]

/-- C3: `Chain.transform` runs the children in sequence order (the head child
first, then the chain of the rest); `Chain.inverse` runs the children's
inverses in reverse order (the rest undone first, then the head); and
`Chain.transform_and_log_abs_det_jacobian` returns the same point as
`Chain.transform` together with the scalar sum of the children's
log-determinants evaluated at the intermediate points, provided each child's
two forward paths agree on the point. -/
theorem C3_chain_correct {V C : Type} (bs : List (Bij V C)) (x y : V) (c : C)
    (H : ∀ b ∈ bs, ∀ z : V,
      (b.transform_and_log_abs_det_jacobian z c).1 = b.transform z c) :
    (∀ b : Bij V C,
      chain_transform (b :: bs) x c = chain_transform bs (b.transform x c) c)
    ∧ (∀ b : Bij V C,
      chain_inverse (b :: bs) y c = b.inverse (chain_inverse bs y c) c)
    ∧ chain_transform_and_log_abs_det_jacobian bs x c
        = (chain_transform bs x c, chain_logdets bs x c) := by
  refine ⟨fun b => rfl, fun b => ?_, ?_⟩
  · simp [chain_inverse, List.foldl_append]
  · have h := chain_foldl_acc bs c H x 0
    rw [zero_add] at h
    exact h

/-- Witness for C3: a chain of two concrete children (add one, add two) on
natural numbers, whose forward paths agree, at input `0`. -/
theorem C3_witness :
    (∀ b ∈ [bij_add_one, bij_add_two], ∀ z : ℕ,
      (b.transform_and_log_abs_det_jacobian z ()).1 = b.transform z ())
    ∧ chain_transform_and_log_abs_det_jacobian [bij_add_one, bij_add_two] 0 ()
        = (chain_transform [bij_add_one, bij_add_two] 0 (),
           chain_logdets [bij_add_one, bij_add_two] 0 ()) := by
  have hH : ∀ b ∈ [bij_add_one, bij_add_two], ∀ z : ℕ,
      (b.transform_and_log_abs_det_jacobian z ()).1 = b.transform z () := by
    intro b hb z
    rcases List.mem_cons.mp hb with rfl | hb
    · rfl
    rcases List.mem_cons.mp hb with rfl | hb
    · rfl
    exact absurd hb (List.not_mem_nil b)
  exact ⟨hH, (C3_chain_correct [bij_add_one, bij_add_two] 0 0 () hH).2.2⟩

/-! ### Theorems: the network forward pass and Jacobian fold -/

/-- Helper: the point threaded through the loop over `layers[1:]` is the
point of the plain forward pass. -/
theorem run_rest_fst {V C J : Type} (ls : List (Layer V C J)) :
    ∀ x : V, (run_rest ls x).1 = ls.foldl (fun v l => (l v none).1) x := by
  induction ls with
  | nil => intro x; rfl
  | cons l lt ih => intro x; simp only [run_rest, List.foldl_cons]; exact ih _

/-- Helper: the Jacobian list collected by the loop over `layers[1:]` is the
specification-side list of per-layer Jacobians. -/
theorem run_rest_snd {V C J : Type} (ls : List (Layer V C J)) :
    ∀ x : V, (run_rest ls x).2 = layer_jacs ls x := by
  induction ls with
  | nil => intro x; rfl
  | cons l lt ih => intro x; simp only [run_rest, layer_jacs]; rw [ih]

/-- Helper: the source's reversed loop over `lds[:-1]` starting from
`lds[-1]` computes the right-to-left fold of the claim. -/
theorem fold_logdet_eq_rtl {J : Type} (comp : J → J → J) (js : List J) :
    ∀ j0 : J, fold_logdet comp j0 js = rtl_fold comp j0 js := by
  induction js with
  | nil => intro j0; rfl
  | cons j1 jt ih =>
      intro j0
      simp only [fold_logdet, rtl_fold] at ih ⊢
      rw [List.dropLast_cons₂, List.reverse_cons, List.foldl_append,
        List.getLast_cons (List.cons_ne_nil j1 jt), ih j1]
      rfl

/-- Helper: the combined method equals the plain transform paired with the
entry sum of the right-to-left fold of the per-layer Jacobians, for any
Jacobian composition and any entry sum. -/
theorem bnaf_tfldj_eq {V C J : Type} (comp : J → J → J) (sumJ : J → ℝ)
    (l0 : Layer V C J) (ls : List (Layer V C J)) (x : V) (c : C) :
    bnaf_transform_and_log_abs_det_jacobian comp sumJ l0 ls x c
      = (bnaf_transform l0 ls x c,
         sumJ (rtl_fold comp (l0 x (some c)).2
           (layer_jacs ls (l0 x (some c)).1))) := by
  simp only [bnaf_transform_and_log_abs_det_jacobian, bnaf_transform]
  rw [run_rest_fst, run_rest_snd, fold_logdet_eq_rtl]

/-- C2: for every input and condition, the network's
`transform_and_log_abs_det_jacobian` returns a point equal to `transform`'s
output, paired with the sum of all entries of the right-to-left fold — last
layer's block Jacobian first, earlier layers composed into the running
result — of the per-layer block Jacobians under `logmatmulexp`. -/
theorem C2_bnaf_tfldj_consistent {V C : Type} (B d : ℕ)
    (l0 : Layer V C (Fin B → Fin (d + 1) → Fin (d + 1) → ℝ))
    (ls : List (Layer V C (Fin B → Fin (d + 1) → Fin (d + 1) → ℝ)))
    (x : V) (c : C) :
    bnaf_transform_and_log_abs_det_jacobian (logmatmulexp B (d + 1) d (d + 1))
        (entries_sum B (d + 1)) l0 ls x c
      = (bnaf_transform l0 ls x c,
         entries_sum B (d + 1)
           (rtl_fold (logmatmulexp B (d + 1) d (d + 1)) (l0 x (some c)).2
             (layer_jacs ls (l0 x (some c)).1))) :=
  bnaf_tfldj_eq _ _ _ _ _ _

/-! ### Theorems: the layer stack built by the constructor -/

/-- Helper: a fold that appends a fixed chunk per element produces the
flattened list of chunks after the accumulator. -/
theorem foldl_append_chunks {β γ : Type} (f : β → List γ) :
    ∀ (l : List β) (acc : List γ),
      l.foldl (fun a x => a ++ f x) acc = acc ++ (l.map f).flatten := by
  intro l
  induction l with
  | nil => intro acc; simp
  | cons x xs ih =>
      intro acc
      simp only [List.foldl_cons, List.map_cons, List.flatten_cons, ih,
        List.append_assoc]

/-- Helper: zipping `k` repetitions of `s` followed by `t` against `k + 1`
repetitions of `cz` pairs every element with `cz`. -/
theorem zip_replicate_append {β γ : Type} (s t : β) (cz : γ) :
    ∀ k : ℕ, (List.replicate k s ++ [t]).zip (List.replicate (k + 1) cz)
      = List.replicate k (s, cz) ++ [(t, cz)] := by
  intro k
  induction k with
  | zero => rfl
  | succ k ih =>
      rw [List.replicate_succ s k, List.replicate_succ cz (k + 1),
        List.replicate_succ (s, cz) k, List.cons_append, List.zip_cons_cons, ih,
        List.cons_append]

/-- Helper: for positive depth, the constructor's fold-and-drop produces the
spec-described interleaving of linear and activation layers. -/
theorem mkLayers_eq_specLayers (dim cond_dim depth block_dim : ℕ)
    (h : 0 < depth) :
    mkLayers dim cond_dim depth block_dim
      = specLayers dim cond_dim depth block_dim := by
  obtain ⟨k, rfl⟩ : ∃ k, depth = k + 1 := ⟨depth - 1, by omega⟩
  simp only [mkLayers, if_neg (Nat.succ_ne_zero k)]
  rw [Nat.add_sub_cancel, List.zip_cons_cons, zip_replicate_append,
    foldl_append_chunks, List.nil_append, List.map_cons, List.map_append,
    List.map_replicate, List.flatten_cons]
  simp only [List.map_cons, List.map_nil, List.flatten_append,
    List.flatten_cons, List.flatten_nil, List.append_nil]
  rw [show [LayerSpec.linear dim (1, block_dim) 0, LayerSpec.activation]
      = [LayerSpec.linear dim (1, block_dim) 0] ++ [LayerSpec.activation]
    from rfl]
  rw [← List.append_assoc, ← List.append_assoc, List.dropLast_concat]
  simp [specLayers, Nat.add_sub_cancel, List.append_assoc]

/-- C8: construction yields, for `depth = 0`, a single masked-linear layer
with block shape `(1, 1)` and `cond_dim` conditioning inputs; and for
`depth > 0`, `depth + 1` masked-linear layers with block shapes
`(block_dim, 1)`, then `(block_dim, block_dim)` repeated `depth - 1` times,
then `(1, block_dim)`, an activation after every masked-linear layer except
the last, conditioning dimension `cond_dim` at the first layer and `0`
afterwards. -/
theorem C8_bnaf_layer_stack (dim cond_dim depth block_dim : ℕ) :
    mkLayers dim cond_dim 0 block_dim = [LayerSpec.linear dim (1, 1) cond_dim]
    ∧ (0 < depth →
      mkLayers dim cond_dim depth block_dim
        = specLayers dim cond_dim depth block_dim) :=
  ⟨by simp [mkLayers], mkLayers_eq_specLayers dim cond_dim depth block_dim⟩

/-- Witness for C8 at `dim = 3`, `cond_dim = 5`, `depth = 2`,
`block_dim = 4`. -/
theorem C8_witness :
    0 < 2 ∧ mkLayers 3 5 2 4 = specLayers 3 5 2 4 :=
  ⟨by decide, (C8_bnaf_layer_stack 3 5 2 4).2 (by decide)⟩

/-! ### Theorems: Permute validation and invertibility -/

/-- Helper: `getD` agrees with `getElem` on in-range indices. -/
theorem getD_in_range {α : Type} (l : List α) (d : α) (i : ℕ)
    (h : i < l.length) : l.getD i d = l[i] := by
  rw [List.getD_eq_getElem?_getD, List.getElem?_eq_getElem h, Option.getD_some]

/-- Helper: the model of `permutation.sort()` is a permutation of its
input. -/
theorem jnp_sort_perm (p : List ℕ) : (jnp_sort p).Perm p :=
  List.perm_insertionSort _ p

/-- Helper: the model of `permutation.sort()` is ascending. -/
theorem jnp_sort_sorted (p : List ℕ) : List.Sorted (· ≤ ·) (jnp_sort p) :=
  List.sorted_insertionSort _ p

/-- Helper: the constructor's assert succeeds exactly on the lists that are
permutations of `0, …, length - 1`. -/
theorem jnp_sort_eq_range_iff (p : List ℕ) :
    jnp_sort p = List.range p.length ↔ p.Perm (List.range p.length) := by
  constructor
  · intro h
    exact h ▸ (jnp_sort_perm p).symm
  · intro h
    exact List.eq_of_perm_of_sorted ((jnp_sort_perm p).trans h)
      (jnp_sort_sorted p) (List.sorted_le_range _)

/-- C5: constructing a `Permute` from an index array fails with the
invalid-permutation error exactly when the array is not a bijection of
`[0, dim)` (a permutation of `0, …, dim - 1`); construction from any valid
permutation succeeds and stores the permutation with its `argsort`. -/
theorem C5_permute_validation (p : List ℕ) :
    (mkPermute p = Except.error Err.invalidPermutation
      ↔ ¬ p.Perm (List.range p.length))
    ∧ (p.Perm (List.range p.length) →
        mkPermute p = Except.ok ⟨p, argsort p⟩) := by
  by_cases h : p.Perm (List.range p.length)
  · have hv : permute_valid p = true :=
      decide_eq_true ((jnp_sort_eq_range_iff p).mpr h)
    refine ⟨⟨fun he => ?_, fun hn => absurd h hn⟩, fun _ => ?_⟩
    · rw [mkPermute, hv] at he
      simp at he
    · rw [mkPermute, hv]
      rfl
  · have hv : permute_valid p = false :=
      decide_eq_false (fun hs => h ((jnp_sort_eq_range_iff p).mp hs))
    refine ⟨⟨fun _ => h, fun _ => ?_⟩, fun hperm => absurd hperm h⟩
    rw [mkPermute, hv]
    rfl

/-- Witness for C5: `Permute([0,0,1])` is rejected with the
invalid-permutation error, while `Permute([2,0,1])` succeeds and stores the
inverse permutation `[1,2,0]`. -/
theorem C5_witness :
    mkPermute [0, 0, 1] = Except.error Err.invalidPermutation
    ∧ mkPermute [2, 0, 1] = Except.ok ⟨[2, 0, 1], [1, 2, 0]⟩ := by
  constructor
  · exact (C5_permute_validation [0, 0, 1]).1.mpr (by decide)
  · rw [(C5_permute_validation [2, 0, 1]).2 (by decide)]
    rfl

/-- Helper: indexing a list by `getD` along `range` recovers the list. -/
theorem map_getD_range {α : Type} (l : List α) (d : α) :
    (List.range l.length).map (fun i => l.getD i d) = l := by
  apply List.ext_getElem
  · simp
  · intro i h1 h2
    simp only [List.getElem_map, List.getElem_range]
    exact getD_in_range l d i h2

/-- Helper: for a valid permutation `p`, following `argsort p` through `p`
yields the ascending indices; this is the composition identity behind the
constructor-derived inverse permutation. -/
theorem argsort_map_getD (p : List ℕ) (hp : p.Perm (List.range p.length)) :
    (argsort p).map (fun i => p.getD i 0) = List.range p.length := by
  haveI hto : IsTotal ℕ (fun i j => p.getD i 0 ≤ p.getD j 0) :=
    ⟨fun a b => le_total _ _⟩
  haveI htr : IsTrans ℕ (fun i j => p.getD i 0 ≤ p.getD j 0) :=
    ⟨fun a b c hab hbc => le_trans hab hbc⟩
  have h1 : (argsort p).Perm (List.range p.length) :=
    List.perm_insertionSort _ _
  have hperm : ((argsort p).map (fun i => p.getD i 0)).Perm p := by
    have h2 := h1.map (fun i => p.getD i 0)
    rwa [map_getD_range p 0] at h2
  have hsorted : List.Sorted (· ≤ ·) ((argsort p).map (fun i => p.getD i 0)) := by
    have hs : List.Sorted (fun i j => p.getD i 0 ≤ p.getD j 0) (argsort p) :=
      List.sorted_insertionSort _ _
    exact List.pairwise_map.mpr hs
  exact List.eq_of_perm_of_sorted (hperm.trans hp) hsorted
    (List.sorted_le_range _)

/-- Helper: the length of `argsort p` is the length of `p`. -/
theorem argsort_length (p : List ℕ) : (argsort p).length = p.length := by
  have h := (List.perm_insertionSort
    (fun i j => p.getD i 0 ≤ p.getD j 0) (List.range p.length)).length_eq
  rw [List.length_range] at h
  exact h

/-- Helper: entries of `argsort p` are in-range indices. -/
theorem argsort_entry_lt (p : List ℕ) (i : ℕ) (h : i < (argsort p).length) :
    (argsort p).getD i 0 < p.length := by
  rw [getD_in_range _ 0 i h]
  have hmem : (argsort p)[i] ∈ argsort p := List.getElem_mem h
  have hmem2 : (argsort p)[i] ∈ List.range p.length :=
    (List.perm_insertionSort _ _).subset hmem
  exact List.mem_range.mp hmem2

/-- Helper: `getD` commutes with `map` on in-range indices. -/
theorem getD_map_in_range {α β : Type} (f : α → β) (l : List α) (d : β)
    (d2 : α) (i : ℕ) (h : i < l.length) :
    (l.map f).getD i d = f (l.getD i d2) := by
  rw [getD_in_range _ d i (by simpa using h), List.getElem_map,
    getD_in_range l d2 i h]

/-- Helper: pointwise form of `argsort_map_getD`. -/
theorem getD_argsort (p : List ℕ) (hp : p.Perm (List.range p.length))
    (i : ℕ) (h : i < (argsort p).length) : p.getD ((argsort p).getD i 0) 0 = i := by
  have hkey := argsort_map_getD p hp
  have hlen : i < ((argsort p).map (fun j => p.getD j 0)).length := by
    simpa using h
  have hn : i < (List.range p.length).length := by
    rw [List.length_range]
    rw [argsort_length p] at h
    exact h
  have h2 : ((argsort p).map (fun j => p.getD j 0)).getD i 0
      = (List.range p.length).getD i 0 := by rw [hkey]
  rw [getD_map_in_range (fun j => p.getD j 0) (argsort p) 0 0 i h,
    getD_in_range _ 0 i hn, List.getElem_range] at h2
  exact h2

/-- C6: for every valid permutation `p` and vector of matching dimension,
the `Permute` bijection built from `p` — whose inverse permutation is
derived once at construction as `argsort p` — satisfies
`inverse (transform x) = x`; in particular `Permute([2,0,1])` maps
`[a,b,c]` to `[c,a,b]` and its inverse maps `[c,a,b]` back to `[a,b,c]`. -/
theorem C6_permute_roundtrip {α : Type} [Inhabited α] (p : List ℕ)
    (x : List α) (hp : p.Perm (List.range p.length))
    (hx : x.length = p.length) (c1 c2 : List α) :
    permute_inverse ⟨p, argsort p⟩ (permute_transform ⟨p, argsort p⟩ x c1) c2
      = x
    ∧ (∀ a b c : α,
        permute_transform ⟨[2, 0, 1], argsort [2, 0, 1]⟩ [a, b, c] c1
          = [c, a, b]
        ∧ permute_inverse ⟨[2, 0, 1], argsort [2, 0, 1]⟩ [c, a, b] c2
          = [a, b, c]) := by
  refine ⟨?_, fun a b c => ⟨rfl, rfl⟩⟩
  simp only [permute_inverse, permute_transform, index_list]
  apply List.ext_getElem
  · simp [argsort_length p, hx]
  · intro i h1 h2
    have hi : i < (argsort p).length := by simpa using h1
    rw [← getD_in_range _ default i h1, ← getD_in_range x default i h2,
      getD_map_in_range _ (argsort p) default 0 i hi,
      getD_map_in_range (fun j => x.getD j default) p default 0 _
        (argsort_entry_lt p i hi),
      getD_argsort p hp i hi]

/-- Witness for C6: the permutation `[2,0,1]` on the vector `[10,20,30]`. -/
theorem C6_witness :
    ([2, 0, 1] : List ℕ).Perm (List.range 3)
    ∧ permute_inverse ⟨[2, 0, 1], argsort [2, 0, 1]⟩
        (permute_transform ⟨[2, 0, 1], argsort [2, 0, 1]⟩
          ([10, 20, 30] : List ℕ) []) []
      = [10, 20, 30] := by
  refine ⟨by decide, ?_⟩
  exact (C6_permute_roundtrip [2, 0, 1] [10, 20, 30] (by decide) (by decide)
    [] []).1

end Flowjax
